import Mathlib

/-!
Verification of the `Speller` decoder (`src/models/speller.py`) of the
Korean-Speech-Recognition repository.

The decoder is embedded shallowly: tensors are nested lists of rationals,
token tensors are nested lists of naturals, and the numeric kernels that the
source treats as external collaborators (`nn.Embedding`, the input-dropout
module, `nn.GRU`/`nn.LSTM`, the `Attention` module from the missing
`src/models/attention.py`, `nn.Linear`, and the caller-supplied normalization
function) are abstract parameters collected in a `Kernels` record.  All
control flow of `forward`, `forward_step`, `greedy_decode` and
`_validate_args` is translated directly from the source.
-/

set_option maxRecDepth 4000

namespace Speller

/-- A 1-D tensor (vector) of rationals. -/
abbrev Vec := List ℚ

/-- A 2-D tensor of rationals. -/
abbrev Mat := List (List ℚ)

/-- A 3-D tensor of rationals. -/
abbrev Ten3 := List (List (List ℚ))

/-- Models `t.size(1)` of a torch tensor: the length of the second dimension
(read off the first row, as tensors are uniformly shaped). -/
def tsize1 {α : Type} (t : List (List α)) : Nat := (t.headD []).length

/-- The nested list `m` is a well-formed 2-D tensor of shape `[a, b]`. -/
def hasShape2 {α : Type} (m : List (List α)) (a b : Nat) : Prop :=
  m.length = a ∧ ∀ r ∈ m, r.length = b

/-- The nested list `t` is a well-formed 3-D tensor of shape `[a, b, c]`. -/
def hasShape3 {α : Type} (t : List (List (List α))) (a b c : Nat) : Prop :=
  t.length = a ∧ ∀ m ∈ t, hasShape2 m b c

instance {α : Type} (m : List (List α)) (a b : Nat) : Decidable (hasShape2 m a b) := by
  unfold hasShape2; exact inferInstance

instance {α : Type} (t : List (List (List α))) (a b c : Nat) : Decidable (hasShape3 t a b c) := by
  unfold hasShape3; exact inferInstance

/-- Models `torch.zeros(a, b, c)`. -/
def zeros3 (a b c : Nat) : Ten3 :=
  List.replicate a (List.replicate b (List.replicate c (0 : ℚ)))

/-- Models the slice `t[:, di, :]` of a 3-D tensor. -/
def col (di : Nat) (t : Ten3) : Mat := t.map (fun m => m.getD di [])

/-- Models `t.squeeze(1)` of a tensor of shape `[B, 1, V]`. -/
def squeeze1 (t : Ten3) : Mat := t.map (fun m => m.headD [])

/-- Auxiliary recursion for `argmaxIdx`. -/
def argmaxAux : List ℚ → Nat → ℚ → Nat → Nat
  | [], _, _, best => best
  | x :: xs, i, bv, best =>
      if bv < x then argmaxAux xs (i + 1) x i else argmaxAux xs (i + 1) bv best

/-- Models `row.topk(1)[1]` on a 1-D slice: the index of the (first) maximal
entry. -/
def argmaxIdx : List ℚ → Nat
  | [] => 0
  | x :: xs => argmaxAux xs 1 x 0

/-- The supported recurrent-cell kinds (`nn.GRU` / `nn.LSTM`). -/
inductive RnnCell
  | gru
  | lstm
deriving DecidableEq

/-- Configuration state stored by `Speller.__init__`. -/
structure SpellerConfig where
  vocab_size : Nat
  max_len : Nat
  hidden_size : Nat
  sos_id : Nat
  eos_id : Nat
  layer_size : Nat
  rnn_cell : RnnCell
  use_attention : Bool
deriving DecidableEq

/-- Models Python's `str.lower()`: character-wise lowercasing. -/
def strLower (s : String) : String := ⟨s.data.map Char.toLower⟩

/-- Models `Speller.__init__`'s validation of the `rnn_cell` string:
`ValueError` unless it lowercases to "gru" or "lstm". -/
def mkSpellerConfig (vocab_size max_len hidden_size sos_id eos_id layer_size : Nat)
    (rnn_cell : String) (use_attention : Bool) : Except String SpellerConfig :=
  if strLower rnn_cell ≠ "gru" ∧ strLower rnn_cell ≠ "lstm" then
    .error ("Unsupported RNN Cell: " ++ rnn_cell)
  else
    .ok ⟨vocab_size, max_len, hidden_size, sos_id, eos_id, layer_size,
      if strLower rnn_cell = "gru" then RnnCell.gru else RnnCell.lstm, use_attention⟩

/-- A recurrent hidden state: a single tensor (`nn.GRU`) or a pair of tensors
(`nn.LSTM`), each of shape `[layers, batch, hidden]`. -/
inductive DecHidden
  | single (t : Ten3)
  | pair (h c : Ten3)
deriving DecidableEq

/-- An entry of the attention-score trace.  The source appends either a 2-D
slice `attn[:, di, :]` (teacher-forced branch) or the raw 3-D tensor returned
by `forward_step` (autoregressive branch), so the trace is heterogeneous. -/
inductive AttnEntry
  | mat (m : Mat)
  | ten (t : Ten3)
deriving DecidableEq

/-- Decides whether an attention-trace entry is a 2-D tensor of shape `[a, b]`. -/
def AttnEntry.isMatOfShape : AttnEntry → Nat → Nat → Bool
  | AttnEntry.mat m, a, b => decide (hasShape2 m a b)
  | AttnEntry.ten _, _, _ => false

/-- Decides whether an attention-trace entry is a 3-D tensor of shape `[a, b, c]`. -/
def AttnEntry.isTenOfShape : AttnEntry → Nat → Nat → Nat → Bool
  | AttnEntry.ten t, a, b, c => decide (hasShape3 t a b c)
  | AttnEntry.mat _, _, _, _ => false

/-- The numeric kernels the source composes; they are external collaborators
(embedding, input dropout, the recurrent cell, the attention module from the
missing `src/models/attention.py`, and the output projection `self.out`).
`rnn` is fallible, as torch modules raise on malformed hidden states. -/
structure Kernels where
  embedding : Nat → Vec
  inputDropout : Ten3 → Ten3
  rnn : Ten3 → DecHidden → Except String (Ten3 × DecHidden)
  attend : Ten3 → Ten3 → Ten3 × Ten3
  outProj : Vec → Vec

/-- Models the `view(-1, hidden)` / `self.out` / `function(·, dim=1)` /
`view(batch, L, -1)` pipeline of `forward_step` line 110: for the uniformly
shaped tensors the recurrent cell produces, the flatten-project-normalize-
reshape round trip is exactly a per-position application along the last axis. -/
def project (K : Kernels) (normalize : Vec → Vec) (output : Ten3) : Ten3 :=
  output.map (fun m => m.map (fun h => normalize (K.outProj h)))

/-- Models `Speller.forward_step` (lines 92-111): embed the input tokens,
apply input dropout, run the recurrent cell, optionally replace the output by
the attention module's blended output (also returning the alignment), and
project/normalize to a `[batch, L, vocab]` distribution. -/
def forward_step (cfg : SpellerConfig) (K : Kernels) (normalize : Vec → Vec)
    (speller_input : List (List Nat)) (speller_hidden : DecHidden)
    (listener_outputs : Option Ten3) : Except String (Ten3 × DecHidden × Option Ten3) :=
  let embedded := speller_input.map (fun row => row.map K.embedding)
  let embedded := K.inputDropout embedded
  match K.rnn embedded speller_hidden with
  | .error e => .error e
  | .ok (output, hidden) =>
    if cfg.use_attention then
      let oa := K.attend output (listener_outputs.getD [])
      .ok (project K normalize oa.1, hidden, some oa.2)
    else
      .ok (project K normalize output, hidden, none)

/-- The accumulators the `greedy_decode` closure mutates:
`speller_outputs`, the attention trace, `sequence_symbols`, and the numpy
`lengths` array (integer-valued, initialised to `max_length`). -/
structure DecodeAcc where
  speller_outputs : List Mat
  attn_scores : List AttnEntry
  sequence_symbols : List (List (List Nat))
  lengths : List ℤ
deriving DecidableEq

/-- Models the numpy fancy assignment of `greedy_decode` lines 146-147:
`update_idx = ((lengths > step) & eos_batches) != 0; lengths[update_idx] = newval`.
A missing mask entry leaves the corresponding length untouched. -/
def updateLengths (step : Nat) (newval : ℤ) : List ℤ → List Bool → List ℤ
  | [], _ => []
  | l :: ls, [] => l :: ls
  | l :: ls, e :: es =>
      (if (step : ℤ) < l ∧ e = true then newval else l) :: updateLengths step newval ls es

/-- Models `symbol.data.eq(self.eos_id).cpu().view(-1).numpy()` for the
`[batch, 1]` symbol tensor produced by `topk(1)`. -/
def eosMask (eos : Nat) (symbol : List (List Nat)) : List Bool :=
  symbol.map (fun r => decide (r.headD 0 = eos))

/-- Models the shared bookkeeping closure `greedy_decode` (lines 136-148):
append the step output (and, with attention, the step's attention entry),
compute the per-batch argmax symbol, append it, and finalise lengths for the
batch elements that just emitted `eos_id` while still unfinalised.  Returns
the updated accumulators and the symbol (the next autoregressive input). -/
def greedy_decode (cfg : SpellerConfig) (acc : DecodeAcc) (step : Nat)
    (step_output : Mat) (step_attn : Option AttnEntry) : DecodeAcc × List (List Nat) :=
  let speller_outputs := acc.speller_outputs ++ [step_output]
  let attn_scores :=
    if cfg.use_attention then acc.attn_scores ++ [step_attn.getD (AttnEntry.mat [])]
    else acc.attn_scores
  let symbol := step_output.map (fun row => [argmaxIdx row])
  let sequence_symbols := acc.sequence_symbols ++ [symbol]
  let lengths :=
    updateLengths step ((sequence_symbols.length : Nat) : ℤ) acc.lengths (eosMask cfg.eos_id symbol)
  (⟨speller_outputs, attn_scores, sequence_symbols, lengths⟩, symbol)

/-- Models `_validate_args`'s inference-batch-size resolution (lines 181-191).
For an LSTM cell the source reads `listener_hidden[0].size(1)`, so a single
tensor supplied to an LSTM-configured decoder yields its *hidden* dimension
(indexing a tensor drops the leading layer dimension); a pair supplied to a
GRU-configured decoder raises, as tuples have no `.size`. -/
def inferBatchSize (cfg : SpellerConfig) (inputs : Option (List (List Nat)))
    (listener_hidden : Option DecHidden) : Except String Nat :=
  match inputs, listener_hidden with
  | none, none => .ok 1
  | some ins, _ => .ok ins.length
  | none, some lh =>
    match cfg.rnn_cell, lh with
    | RnnCell.lstm, DecHidden.pair h _ => .ok (tsize1 h)
    | RnnCell.lstm, DecHidden.single t => .ok (tsize1 (t.headD []))
    | RnnCell.gru, DecHidden.single t => .ok (tsize1 t)
    | RnnCell.gru, DecHidden.pair _ _ =>
        .error "AttributeError: tuple object has no attribute size"

/-- Models `Speller._validate_args` (lines 176-204): the attention/encoder
check, batch-size inference, the teacher-forcing-without-targets check,
default-input synthesis, and max-length resolution. -/
def validate_args (cfg : SpellerConfig) (inputs : Option (List (List Nat)))
    (listener_hidden : Option DecHidden) (listener_outputs : Option Ten3)
    (tfr : ℚ) : Except String (List (List Nat) × Nat × ℤ) :=
  if cfg.use_attention = true ∧ listener_outputs = none then
    .error "Argument listener_outputs cannot be None when attention is used."
  else
    match inferBatchSize cfg inputs listener_hidden with
    | .error e => .error e
    | .ok batch_size =>
      match inputs with
      | none =>
        if 0 < tfr then
          .error "Teacher forcing has to be disabled (set 0) when no inputs is provided."
        else
          .ok (List.replicate batch_size [cfg.sos_id], batch_size, (cfg.max_len : ℤ))
      | some ins => .ok (ins, batch_size, (tsize1 ins : ℤ) - 1)

/-- Models the teacher-forced post-processing loop (lines 155-161):
`for di in range(speller_output.size(1)):` run `greedy_decode` on the step's
slices.  The first argument counts the remaining iterations, the second is
the current step index `di`. -/
def teacherLoop (cfg : SpellerConfig) (so : Ten3) (attn : Option Ten3) :
    Nat → Nat → DecodeAcc → DecodeAcc
  | 0, _, acc => acc
  | n + 1, di, acc =>
      teacherLoop cfg so attn n (di + 1)
        (greedy_decode cfg acc di (col di so)
          (attn.map (fun a => AttnEntry.mat (col di a)))).1

/-- Models the autoregressive loop (lines 163-169): at each step call
`forward_step` on the current one-token input, squeeze the step output, run
`greedy_decode`, and feed the produced symbol as the next input.  The returned
third component instruments the loop with the (input, hidden) arguments of
each `forward_step` invocation, in order. -/
def autoLoop (cfg : SpellerConfig) (K : Kernels) (normalize : Vec → Vec)
    (listener_outputs : Option Ten3) :
    Nat → Nat → List (List Nat) → DecHidden → DecodeAcc →
    Except String (DecodeAcc × DecHidden × List (List (List Nat) × DecHidden))
  | 0, _, _, hid, acc => .ok (acc, hid, [])
  | fuel + 1, di, inp, hid, acc =>
    match forward_step cfg K normalize inp hid listener_outputs with
    | .error e => .error e
    | .ok (out, hid1, attn) =>
      let step_output := squeeze1 out
      let step_attn := attn.map AttnEntry.ten
      let gd := greedy_decode cfg acc di step_output step_attn
      match autoLoop cfg K normalize listener_outputs fuel (di + 1) gd.2 hid1 gd.1 with
      | .error e => .error e
      | .ok (acc2, hid2, calls) => .ok (acc2, hid2, (inp, hid) :: calls)

/-- The observable result of one decode call: `speller_outputs`,
`speller_hidden`, and the `ret_dict` entries (attention trace when attention
is enabled, `sequence_symbols`, `lengths`), instrumented with the branch
taken and the ordered trace of `forward_step` invocations. -/
structure ForwardOut where
  speller_outputs : List Mat
  speller_hidden : DecHidden
  attn_scores : Option (List AttnEntry)
  sequence : List (List (List Nat))
  lengths : List ℤ
  teacherForced : Bool
  calls : List (List (List Nat) × DecHidden)
deriving DecidableEq

/-- Models `Speller.forward` (lines 113-174).  The single uniform draw
`random.random()` is the explicit parameter `r`; teacher forcing is used iff
`r < tfr`.  Line 128 allocates the initial hidden state as a *single* zeros
tensor of shape `[layers, batch, hidden]` regardless of the cell kind. -/
def forward (cfg : SpellerConfig) (K : Kernels) (inputs : Option (List (List Nat)))
    (listener_hidden : Option DecHidden) (listener_outputs : Option Ten3)
    (normalize : Vec → Vec) (tfr : ℚ) (r : ℚ) : Except String ForwardOut :=
  match validate_args cfg inputs listener_hidden listener_outputs tfr with
  | .error e => .error e
  | .ok (ins, batch_size, max_length) =>
    let speller_hidden := DecHidden.single (zeros3 cfg.layer_size batch_size cfg.hidden_size)
    let acc0 : DecodeAcc := ⟨[], [], [], List.replicate batch_size max_length⟩
    if r < tfr then
      let speller_input := ins.map List.dropLast
      match forward_step cfg K normalize speller_input speller_hidden listener_outputs with
      | .error e => .error e
      | .ok (speller_output, hid, attn) =>
        let acc := teacherLoop cfg speller_output attn (tsize1 speller_output) 0 acc0
        .ok ⟨acc.speller_outputs, hid,
          if cfg.use_attention then some acc.attn_scores else none,
          acc.sequence_symbols, acc.lengths, true, [(speller_input, speller_hidden)]⟩
    else
      let speller_input := ins.map (fun row => [row.headD 0])
      match autoLoop cfg K normalize listener_outputs max_length.toNat 0
          speller_input speller_hidden acc0 with
      | .error e => .error e
      | .ok (acc, hid, calls) =>
        .ok ⟨acc.speller_outputs, hid,
          if cfg.use_attention then some acc.attn_scores else none,
          acc.sequence_symbols, acc.lengths, false, calls⟩

/-! ### Lengths bookkeeping: characterization of the numpy update -/

theorem updateLengths_length (step : Nat) (nv : ℤ) (ls : List ℤ) (es : List Bool) :
    (updateLengths step nv ls es).length = ls.length := by
  induction ls generalizing es with
  | nil => simp [updateLengths]
  | cons l ls ih =>
    cases es with
    | nil => simp [updateLengths]
    | cons e es => simp [updateLengths, ih]

theorem updateLengths_getElem? (step : Nat) (nv : ℤ) (ls : List ℤ) (es : List Bool) (i : Nat) :
    (updateLengths step nv ls es)[i]? =
      (ls[i]?).map
        (fun li => if (step : ℤ) < li ∧ es.getD i false = true then nv else li) := by
  induction ls generalizing es i with
  | nil => simp [updateLengths]
  | cons l ls ih =>
    cases es with
    | nil =>
      cases h : (l :: ls)[i]? <;>
        simp [updateLengths, h, List.getD]
    | cons e es =>
      cases i with
      | zero => simp [updateLengths, List.getD]
      | succ j => simp [updateLengths, List.getD, ih]

/-- Whether the `[batch, 1]` symbol tensor `s` marks batch element `i` as
having emitted `eos` (the `i`-th entry of the flattened eos mask). -/
def symEos (eos : Nat) (s : List (List Nat)) (i : Nat) : Bool :=
  (eosMask eos s).getD i false

/-- Index of the first step at which batch element `i` emits `eos`. -/
def firstEosIdx (eos : Nat) (i : Nat) : List (List (List Nat)) → Option Nat
  | [] => none
  | s :: rest =>
      if symEos eos s i = true then some 0
      else (firstEosIdx eos i rest).map (fun k => k + 1)

theorem firstEosIdx_lt_length (eos i : Nat) (syms : List (List (List Nat))) (k : Nat)
    (h : firstEosIdx eos i syms = some k) : k < syms.length := by
  induction syms generalizing k with
  | nil => simp [firstEosIdx] at h
  | cons s rest ih =>
    simp only [firstEosIdx] at h
    by_cases hs : symEos eos s i = true
    · rw [if_pos hs] at h
      injection h with h
      simp only [List.length_cons]
      omega
    · rw [if_neg hs] at h
      cases hfe : firstEosIdx eos i rest with
      | none => rw [hfe] at h; simp at h
      | some k' =>
        rw [hfe] at h
        simp only [Option.map_some', Option.some.injEq] at h
        have := ih _ hfe
        simp only [List.length_cons]
        omega

/-- The value of one batch element's length entry after folding the per-step
updates over a list of symbols, starting at step `d` from value `li`. -/
def valAfter (eos i : Nat) : Nat → ℤ → List (List (List Nat)) → ℤ
  | _, li, [] => li
  | d, li, s :: rest =>
      valAfter eos i (d + 1)
        (if (d : ℤ) < li ∧ symEos eos s i = true then ((d + 1 : Nat) : ℤ) else li) rest

/-- Folding the `greedy_decode` length updates over a symbol list. -/
def foldLengths (eos : Nat) : Nat → List ℤ → List (List (List Nat)) → List ℤ
  | _, ls, [] => ls
  | d, ls, s :: rest =>
      foldLengths eos (d + 1) (updateLengths d ((d + 1 : Nat) : ℤ) ls (eosMask eos s)) rest

theorem foldLengths_length (eos : Nat) (syms : List (List (List Nat))) :
    ∀ d ls, (foldLengths eos d ls syms).length = ls.length := by
  induction syms with
  | nil => intro d ls; simp [foldLengths]
  | cons s rest ih => intro d ls; simp [foldLengths, ih, updateLengths_length]

theorem foldLengths_getElem? (eos i : Nat) (syms : List (List (List Nat))) :
    ∀ d (ls : List ℤ),
      (foldLengths eos d ls syms)[i]? = (ls[i]?).map (fun li => valAfter eos i d li syms) := by
  induction syms with
  | nil =>
    intro d ls
    cases h : ls[i]? <;> simp [foldLengths, valAfter, h]
  | cons s rest ih =>
    intro d ls
    simp only [foldLengths, ih, updateLengths_getElem?, Option.map_map]
    cases h : ls[i]? with
    | none => simp
    | some li =>
      simp only [Option.map_some', Function.comp_apply]
      rfl

/-- If batch element `i` never emits `eos`, its length entry keeps its
initial value. -/
theorem valAfter_none (eos i : Nat) (syms : List (List (List Nat)))
    (h : firstEosIdx eos i syms = none) :
    ∀ d (li : ℤ), valAfter eos i d li syms = li := by
  induction syms with
  | nil => intro d li; simp [valAfter]
  | cons s rest ih =>
    intro d li
    simp only [firstEosIdx] at h
    by_cases hs : symEos eos s i = true
    · rw [if_pos hs] at h; simp at h
    · rw [if_neg hs, Option.map_eq_none'] at h
      simp only [valAfter]
      rw [if_neg (fun hc => hs hc.2)]
      exact ih h (d + 1) li

/-- If batch element `i` first emits `eos` at relative step `k`, the folded
length entry becomes `d + k + 1` as long as the entry was still above the
step counter at that point (first end-of-sequence wins; later eos emissions
never change the entry). -/
theorem valAfter_some (eos i : Nat) (syms : List (List (List Nat))) :
    ∀ k, firstEosIdx eos i syms = some k →
      ∀ d (li : ℤ),
        valAfter eos i d li syms =
          if ((d + k : Nat) : ℤ) < li then ((d + k + 1 : Nat) : ℤ) else li := by
  induction syms with
  | nil => intro k h; simp [firstEosIdx] at h
  | cons s rest ih =>
    intro k h d li
    simp only [firstEosIdx] at h
    by_cases hs : symEos eos s i = true
    · rw [if_pos hs] at h
      injection h with h
      subst h
      simp only [valAfter, hs, eq_self_iff_true, and_true]
      cases hfe : firstEosIdx eos i rest with
      | none =>
        rw [valAfter_none eos i rest hfe]
        split_ifs <;> push_cast <;> omega
      | some m =>
        rw [ih m hfe]
        split_ifs <;> push_cast <;> omega
    · rw [if_neg hs] at h
      cases hfe : firstEosIdx eos i rest with
      | none => rw [hfe] at h; simp at h
      | some m =>
        rw [hfe] at h
        simp only [Option.map_some', Option.some.injEq] at h
        subst h
        simp only [valAfter]
        rw [if_neg (fun hc => hs hc.2), ih m hfe]
        split_ifs <;> push_cast <;> omega

/-! ### The bookkeeping loop as a fold of `greedy_decode` -/

/-- The `[batch, 1]` argmax symbol `greedy_decode` derives from a step output. -/
def symbolOf (m : Mat) : List (List Nat) := m.map (fun row => [argmaxIdx row])

/-- Fold `greedy_decode` over a list of per-step `(step_output, step_attn)`
pairs, starting at step index `d`. -/
def applySteps (cfg : SpellerConfig) : DecodeAcc → Nat → List (Mat × Option AttnEntry) → DecodeAcc
  | acc, _, [] => acc
  | acc, d, p :: rest => applySteps cfg (greedy_decode cfg acc d p.1 p.2).1 (d + 1) rest

theorem greedy_decode_fst (cfg : SpellerConfig) (acc : DecodeAcc) (step : Nat)
    (so : Mat) (sa : Option AttnEntry) :
    (greedy_decode cfg acc step so sa).1 =
      ⟨acc.speller_outputs ++ [so],
       if cfg.use_attention then acc.attn_scores ++ [sa.getD (AttnEntry.mat [])]
       else acc.attn_scores,
       acc.sequence_symbols ++ [symbolOf so],
       updateLengths step ((acc.sequence_symbols.length + 1 : Nat) : ℤ) acc.lengths
         (eosMask cfg.eos_id (symbolOf so))⟩ := by
  simp [greedy_decode, symbolOf]

theorem greedy_decode_snd (cfg : SpellerConfig) (acc : DecodeAcc) (step : Nat)
    (so : Mat) (sa : Option AttnEntry) :
    (greedy_decode cfg acc step so sa).2 = symbolOf so := rfl

theorem applySteps_speller_outputs (cfg : SpellerConfig)
    (steps : List (Mat × Option AttnEntry)) : ∀ acc d,
    (applySteps cfg acc d steps).speller_outputs =
      acc.speller_outputs ++ steps.map Prod.fst := by
  induction steps with
  | nil => intro acc d; simp [applySteps]
  | cons p rest ih => intro acc d; simp [applySteps, ih, greedy_decode_fst]

theorem applySteps_sequence (cfg : SpellerConfig)
    (steps : List (Mat × Option AttnEntry)) : ∀ acc d,
    (applySteps cfg acc d steps).sequence_symbols =
      acc.sequence_symbols ++ steps.map (fun p => symbolOf p.1) := by
  induction steps with
  | nil => intro acc d; simp [applySteps]
  | cons p rest ih => intro acc d; simp [applySteps, ih, greedy_decode_fst]

theorem applySteps_attn_true (cfg : SpellerConfig) (h : cfg.use_attention = true)
    (steps : List (Mat × Option AttnEntry)) : ∀ acc d,
    (applySteps cfg acc d steps).attn_scores =
      acc.attn_scores ++ steps.map (fun p => p.2.getD (AttnEntry.mat [])) := by
  induction steps with
  | nil => intro acc d; simp [applySteps]
  | cons p rest ih => intro acc d; simp [applySteps, ih, greedy_decode_fst, h]

theorem applySteps_attn_false (cfg : SpellerConfig) (h : cfg.use_attention = false)
    (steps : List (Mat × Option AttnEntry)) : ∀ acc d,
    (applySteps cfg acc d steps).attn_scores = acc.attn_scores := by
  induction steps with
  | nil => intro acc d; simp [applySteps]
  | cons p rest ih => intro acc d; simp [applySteps, ih, greedy_decode_fst, h]

theorem applySteps_lengths (cfg : SpellerConfig)
    (steps : List (Mat × Option AttnEntry)) : ∀ acc d, acc.sequence_symbols.length = d →
    (applySteps cfg acc d steps).lengths =
      foldLengths cfg.eos_id d acc.lengths (steps.map (fun p => symbolOf p.1)) := by
  induction steps with
  | nil => intro acc d _; simp [applySteps, foldLengths]
  | cons p rest ih =>
    intro acc d hd
    simp only [applySteps, List.map_cons, foldLengths]
    rw [ih _ (d + 1) (by simp [greedy_decode_fst, hd]), greedy_decode_fst]
    simp [hd]

/-- The list of step indices `d, d+1, ..., d+n-1` (Python `range` shifted). -/
def rangeFrom : Nat → Nat → List Nat
  | _, 0 => []
  | d, n + 1 => d :: rangeFrom (d + 1) n

theorem rangeFrom_length : ∀ n d, (rangeFrom d n).length = n := by
  intro n
  induction n with
  | zero => intro d; simp [rangeFrom]
  | succ m ih => intro d; simp [rangeFrom, ih]

theorem mem_rangeFrom : ∀ n d i, i ∈ rangeFrom d n ↔ d ≤ i ∧ i < d + n := by
  intro n
  induction n with
  | zero => intro d i; simp [rangeFrom]
  | succ m ih =>
    intro d i
    simp [rangeFrom, ih]
    omega

/-- The teacher-forced post-processing loop is the `greedy_decode` fold over
the per-step slices of the single multi-step `forward_step` output. -/
theorem teacherLoop_eq (cfg : SpellerConfig) (so : Ten3) (attn : Option Ten3) :
    ∀ n d acc,
      teacherLoop cfg so attn n d acc =
        applySteps cfg acc d ((rangeFrom d n).map
          (fun di => (col di so, attn.map (fun a => AttnEntry.mat (col di a))))) := by
  intro n
  induction n with
  | zero => intro d acc; simp [teacherLoop, rangeFrom, applySteps]
  | succ m ih => intro d acc; simp [teacherLoop, rangeFrom, applySteps, ih]

/-- Structural inversion of a successful autoregressive loop: it is a
`greedy_decode` fold over `fuel` steps, makes `fuel` step-transition calls,
and the first recorded call receives the given input and hidden state. -/
theorem autoLoop_ok_inv (cfg : SpellerConfig) (K : Kernels) (normalize : Vec → Vec)
    (lo : Option Ten3) : ∀ fuel d inp hid acc acc2 hid2 calls,
    autoLoop cfg K normalize lo fuel d inp hid acc = .ok (acc2, hid2, calls) →
    ∃ steps : List (Mat × Option AttnEntry),
      steps.length = fuel ∧ acc2 = applySteps cfg acc d steps ∧
      calls.length = fuel ∧ (∀ c, calls.head? = some c → c = (inp, hid)) := by
  intro fuel
  induction fuel with
  | zero =>
    intro d inp hid acc acc2 hid2 calls h
    simp only [autoLoop] at h
    cases h
    exact ⟨[], rfl, rfl, rfl, by simp⟩
  | succ n ih =>
    intro d inp hid acc acc2 hid2 calls h
    simp only [autoLoop] at h
    split at h
    · exact absurd h (by simp)
    · split at h
      · exact absurd h (by simp)
      · cases h
        rename_i x1 out hid1 attn hfs x2 calls3 hrec
        obtain ⟨steps, hlen, hacc, hclen, _⟩ := ih _ _ _ _ _ _ _ hrec
        refine ⟨(squeeze1 out, attn.map AttnEntry.ten) :: steps, by simp [hlen], ?_, by simp [hclen], ?_⟩
        · simpa [applySteps] using hacc
        · intro c hc
          simp only [List.head?_cons, Option.some.injEq] at hc
          exact hc.symm

/-! ### Shape lemmas and kernel contracts -/

theorem getD_mem_of_lt {α : Type} (l : List α) (i : Nat) (d : α) (h : i < l.length) :
    l.getD i d ∈ l := by
  rw [List.getD_eq_getElem l d h]
  exact List.getElem_mem h

theorem hasShape3_embed {B L H : Nat} (emb : Nat → Vec) (inp : List (List Nat))
    (hlen : ∀ n, (emb n).length = H) (hinp : hasShape2 inp B L) :
    hasShape3 (inp.map (fun row => row.map emb)) B L H := by
  constructor
  · simpa using hinp.1
  · intro m hm
    rw [List.mem_map] at hm
    obtain ⟨row, hr, rfl⟩ := hm
    constructor
    · simpa using hinp.2 row hr
    · intro v hv
      rw [List.mem_map] at hv
      obtain ⟨n, -, rfl⟩ := hv
      exact hlen n

theorem hasShape3_project (cfg : SpellerConfig) (K : Kernels) (normalize : Vec → Vec)
    {B L H : Nat} (o : Ten3) (ho : hasShape3 o B L H)
    (hout : ∀ v, (K.outProj v).length = cfg.vocab_size)
    (hnorm : ∀ v, (normalize v).length = v.length) :
    hasShape3 (project K normalize o) B L cfg.vocab_size := by
  constructor
  · simpa [project] using ho.1
  · intro m hm
    rw [project, List.mem_map] at hm
    obtain ⟨m0, hm0, rfl⟩ := hm
    constructor
    · simpa using (ho.2 m0 hm0).1
    · intro v hv
      rw [List.mem_map] at hv
      obtain ⟨h0, -, rfl⟩ := hv
      rw [hnorm]
      exact hout h0

theorem tsize1_of_hasShape3 {α : Type} {t : List (List (List α))} {a b c : Nat}
    (h : hasShape3 t a b c) (ha : 0 < a) : tsize1 t = b := by
  cases t with
  | nil =>
    obtain ⟨h1, -⟩ := h
    simp at h1
    omega
  | cons m rest =>
    have := h.2 m (List.mem_cons_self m rest)
    simpa [tsize1] using this.1

theorem hasShape2_col {B L S : Nat} (a : Ten3) (ha : hasShape3 a B L S) (di : Nat)
    (hdi : di < L) : hasShape2 (col di a) B S := by
  constructor
  · simpa [col] using ha.1
  · intro r hr
    rw [col, List.mem_map] at hr
    obtain ⟨m, hm, rfl⟩ := hr
    obtain ⟨hml, hmr⟩ := ha.2 m hm
    exact hmr _ (getD_mem_of_lt m di [] (by omega))

theorem symbolOf_length (m : Mat) : (symbolOf m).length = m.length := by
  simp [symbolOf]

theorem symbolOf_rows (m : Mat) : ∀ r ∈ symbolOf m, r.length = 1 := by
  intro r hr
  rw [symbolOf, List.mem_map] at hr
  obtain ⟨row, -, rfl⟩ := hr
  rfl

theorem squeeze1_length (t : Ten3) : (squeeze1 t).length = t.length := by
  simp [squeeze1]

/-- The shape contracts of the external numeric kernels, as documented for
the corresponding torch modules (and, for the attention module, the spec's
description of the missing `src/models/attention.py`): embedding produces
hidden-width vectors, input dropout is shape-preserving, the recurrent cell
succeeds on well-shaped input and preserves `[batch, L, hidden]`, attention
preserves the blended output's shape and returns a `[batch, L, source_len]`
alignment, the projection produces vocabulary-width vectors, and the
normalization function is length-preserving. -/
structure KernelSpec (cfg : SpellerConfig) (K : Kernels) (normalize : Vec → Vec) : Prop where
  emb_len : ∀ n, (K.embedding n).length = cfg.hidden_size
  drop_shape : ∀ (t : Ten3) (a b c : Nat), hasShape3 t a b c → hasShape3 (K.inputDropout t) a b c
  rnn_ok : ∀ (t : Ten3) (h : DecHidden) (a b : Nat), hasShape3 t a b cfg.hidden_size →
    ∃ o h2, K.rnn t h = Except.ok (o, h2) ∧ hasShape3 o a b cfg.hidden_size
  att_shape : ∀ (o ctx : Ten3) (a b : Nat), hasShape3 o a b cfg.hidden_size →
    hasShape3 (K.attend o ctx).1 a b cfg.hidden_size ∧
    hasShape3 (K.attend o ctx).2 a b (tsize1 ctx)
  out_len : ∀ v, (K.outProj v).length = cfg.vocab_size
  norm_len : ∀ v, (normalize v).length = v.length

/-- Under the kernel contracts, `forward_step` on a `[batch, L]` token tensor
succeeds, returns a `[batch, L, vocab]` distribution, returns an alignment iff
attention is enabled, and any alignment has shape `[batch, L, source_len]`. -/
theorem forward_step_shape_aux (cfg : SpellerConfig) (K : Kernels) (normalize : Vec → Vec)
    (inp : List (List Nat)) (hid : DecHidden) (lo : Option Ten3) (B L : Nat)
    (spec : KernelSpec cfg K normalize) (hinp : hasShape2 inp B L) :
    ∃ dist hid2 attn, forward_step cfg K normalize inp hid lo = .ok (dist, hid2, attn) ∧
      hasShape3 dist B L cfg.vocab_size ∧
      (attn.isSome ↔ cfg.use_attention = true) ∧
      (∀ a, attn = some a → hasShape3 a B L (tsize1 (lo.getD []))) := by
  have hemb := hasShape3_embed K.embedding inp spec.emb_len hinp
  have hdrop := spec.drop_shape _ B L cfg.hidden_size hemb
  obtain ⟨o, h2, hrnn, ho⟩ := spec.rnn_ok _ hid B L hdrop
  rw [forward_step]
  rw [hrnn]
  cases hua : cfg.use_attention with
  | false =>
    refine ⟨project K normalize o, h2, none, by simp, ?_, by simp [hua], by simp⟩
    exact hasShape3_project cfg K normalize o ho spec.out_len spec.norm_len
  | true =>
    obtain ⟨hblend, hattn⟩ := spec.att_shape o (lo.getD []) B L ho
    refine ⟨project K normalize (K.attend o (lo.getD [])).1, h2,
      some (K.attend o (lo.getD [])).2, by simp, ?_, by simp [hua], ?_⟩
    · exact hasShape3_project cfg K normalize _ hblend spec.out_len spec.norm_len
    · intro a ha
      cases ha
      exact hattn

/-- Under the kernel contracts, the autoregressive loop always succeeds on a
`[batch, 1]` input; it is a `greedy_decode` fold over `fuel` step outputs that
all have `batch` rows, whose attention components are the raw 3-D
`[batch, 1, source_len]` alignments exactly when attention is enabled. -/
theorem autoLoop_full (cfg : SpellerConfig) (K : Kernels) (normalize : Vec → Vec)
    (lo : Option Ten3) (spec : KernelSpec cfg K normalize) (B : Nat) :
    ∀ fuel d inp hid acc, hasShape2 inp B 1 →
    ∃ acc2 hid2 calls steps,
      autoLoop cfg K normalize lo fuel d inp hid acc = .ok (acc2, hid2, calls) ∧
      acc2 = applySteps cfg acc d steps ∧ steps.length = fuel ∧ calls.length = fuel ∧
      (∀ c, calls.head? = some c → c = (inp, hid)) ∧
      (∀ p ∈ steps, p.1.length = B ∧
        (cfg.use_attention = true →
          ∃ t, p.2 = some (AttnEntry.ten t) ∧ hasShape3 t B 1 (tsize1 (lo.getD []))) ∧
        (cfg.use_attention = false → p.2 = none)) := by
  intro fuel
  induction fuel with
  | zero =>
    intro d inp hid acc hinp
    exact ⟨acc, hid, [], [], rfl, rfl, rfl, rfl, by simp, by simp⟩
  | succ n ih =>
    intro d inp hid acc hinp
    obtain ⟨dist, hid2, attn, hfs, hdist, hsome, hashape⟩ :=
      forward_step_shape_aux cfg K normalize inp hid lo B 1 spec hinp
    have hsq : (squeeze1 dist).length = B := by rw [squeeze1_length, hdist.1]
    have hsymShape : hasShape2 (symbolOf (squeeze1 dist)) B 1 := by
      constructor
      · rw [symbolOf_length]; exact hsq
      · exact symbolOf_rows _
    obtain ⟨acc2, hid3, calls, steps, hal, hacc, hslen, hclen, -, hsteps⟩ :=
      ih (d + 1) (symbolOf (squeeze1 dist)) hid2
        (greedy_decode cfg acc d (squeeze1 dist) (attn.map AttnEntry.ten)).1 hsymShape
    refine ⟨acc2, hid3, (inp, hid) :: calls,
      (squeeze1 dist, attn.map AttnEntry.ten) :: steps, ?_, ?_, by simp [hslen],
      by simp [hclen], by simp, ?_⟩
    · rw [autoLoop, hfs]
      simp only [greedy_decode_snd]
      rw [hal]
    · simpa [applySteps] using hacc
    · intro p hp
      rw [List.mem_cons] at hp
      cases hp with
      | inl hp =>
        subst hp
        refine ⟨hsq, ?_, ?_⟩
        · intro hua
          obtain ⟨a, ha⟩ := Option.isSome_iff_exists.mp (hsome.mpr hua)
          exact ⟨a, by simp [ha], hashape a ha⟩
        · intro hua
          have hnone : attn = none := by
            cases attn with
            | none => rfl
            | some a => simp [hua] at hsome
          simp [hnone]
      | inr hp => exact hsteps p hp

/-! ### Characterizations of validation and the two forward branches -/

theorem inferBatchSize_some (cfg : SpellerConfig) (ins : List (List Nat))
    (lh : Option DecHidden) : inferBatchSize cfg (some ins) lh = .ok ins.length := by
  cases lh <;> rfl

theorem validate_args_some (cfg : SpellerConfig) (ins : List (List Nat))
    (lh : Option DecHidden) (lo : Option Ten3) (tfr : ℚ)
    (hA : ¬ (cfg.use_attention = true ∧ lo = none)) :
    validate_args cfg (some ins) lh lo tfr = .ok (ins, ins.length, (tsize1 ins : ℤ) - 1) := by
  rw [validate_args, if_neg hA, inferBatchSize_some]

theorem validate_args_none (cfg : SpellerConfig) (lh : Option DecHidden)
    (lo : Option Ten3) (tfr : ℚ) (b : Nat)
    (hA : ¬ (cfg.use_attention = true ∧ lo = none)) (htfr : ¬ 0 < tfr)
    (hb : inferBatchSize cfg none lh = .ok b) :
    validate_args cfg none lh lo tfr =
      .ok (List.replicate b [cfg.sos_id], b, (cfg.max_len : ℤ)) := by
  rw [validate_args, if_neg hA, hb]
  simp [htfr]

theorem validate_args_attn_error (cfg : SpellerConfig) (inputs : Option (List (List Nat)))
    (lh : Option DecHidden) (tfr : ℚ) (hA : cfg.use_attention = true) :
    validate_args cfg inputs lh none tfr =
      .error "Argument listener_outputs cannot be None when attention is used." := by
  rw [validate_args, if_pos ⟨hA, rfl⟩]

theorem validate_args_tfr_error (cfg : SpellerConfig) (lh : Option DecHidden)
    (lo : Option Ten3) (tfr : ℚ) (b : Nat)
    (hA : ¬ (cfg.use_attention = true ∧ lo = none)) (htfr : 0 < tfr)
    (hb : inferBatchSize cfg none lh = .ok b) :
    validate_args cfg none lh lo tfr =
      .error "Teacher forcing has to be disabled (set 0) when no inputs is provided." := by
  rw [validate_args, if_neg hA, hb]
  simp [htfr]

theorem validate_args_batch (cfg : SpellerConfig) (inputs : Option (List (List Nat)))
    (lh : Option DecHidden) (lo : Option Ten3) (tfr : ℚ)
    (ins : List (List Nat)) (B : Nat) (M : ℤ)
    (h : validate_args cfg inputs lh lo tfr = .ok (ins, B, M)) : ins.length = B := by
  rw [validate_args] at h
  split at h
  · simp at h
  · split at h
    · simp at h
    · rename_i b hb
      cases inputs with
      | none =>
        rw [show (match (none : Option (List (List Nat))) with
          | none =>
            if 0 < tfr then
              (Except.error "Teacher forcing has to be disabled (set 0) when no inputs is provided." :
                Except String (List (List Nat) × Nat × ℤ))
            else .ok (List.replicate b [cfg.sos_id], b, (cfg.max_len : ℤ))
          | some ins => .ok (ins, b, (tsize1 ins : ℤ) - 1)) =
            (if 0 < tfr then
              (Except.error "Teacher forcing has to be disabled (set 0) when no inputs is provided." :
                Except String (List (List Nat) × Nat × ℤ))
            else .ok (List.replicate b [cfg.sos_id], b, (cfg.max_len : ℤ))) from rfl] at h
        split at h
        · simp at h
        · simp only [Except.ok.injEq, Prod.mk.injEq] at h
          obtain ⟨rfl, rfl, -⟩ := h
          simp
      | some ins0 =>
        simp only [Except.ok.injEq, Prod.mk.injEq] at h
        obtain ⟨rfl, rfl, -⟩ := h
        have hb2 := inferBatchSize_some cfg ins0 lh
        rw [hb] at hb2
        injection hb2 with hb2
        exact hb2.symm

theorem forward_auto_run (cfg : SpellerConfig) (K : Kernels) (normalize : Vec → Vec)
    (inputs : Option (List (List Nat))) (lh : Option DecHidden) (lo : Option Ten3)
    (tfr r : ℚ) (ins : List (List Nat)) (B : Nat) (M : ℤ)
    (acc : DecodeAcc) (hid : DecHidden) (calls : List (List (List Nat) × DecHidden))
    (hval : validate_args cfg inputs lh lo tfr = .ok (ins, B, M))
    (hr : ¬ r < tfr)
    (hal : autoLoop cfg K normalize lo M.toNat 0 (ins.map (fun row => [row.headD 0]))
        (DecHidden.single (zeros3 cfg.layer_size B cfg.hidden_size))
        ⟨[], [], [], List.replicate B M⟩ = .ok (acc, hid, calls)) :
    forward cfg K inputs lh lo normalize tfr r =
      .ok ⟨acc.speller_outputs, hid,
        if cfg.use_attention then some acc.attn_scores else none,
        acc.sequence_symbols, acc.lengths, false, calls⟩ := by
  rw [forward, hval]
  simp only [if_neg hr]
  rw [hal]

theorem forward_teacher_run (cfg : SpellerConfig) (K : Kernels) (normalize : Vec → Vec)
    (inputs : Option (List (List Nat))) (lh : Option DecHidden) (lo : Option Ten3)
    (tfr r : ℚ) (ins : List (List Nat)) (B : Nat) (M : ℤ)
    (so : Ten3) (hid : DecHidden) (attn : Option Ten3)
    (hval : validate_args cfg inputs lh lo tfr = .ok (ins, B, M))
    (hr : r < tfr)
    (hfs : forward_step cfg K normalize (ins.map List.dropLast)
        (DecHidden.single (zeros3 cfg.layer_size B cfg.hidden_size)) lo = .ok (so, hid, attn)) :
    forward cfg K inputs lh lo normalize tfr r =
      .ok ⟨(teacherLoop cfg so attn (tsize1 so) 0 ⟨[], [], [], List.replicate B M⟩).speller_outputs,
        hid,
        if cfg.use_attention then
          some (teacherLoop cfg so attn (tsize1 so) 0 ⟨[], [], [], List.replicate B M⟩).attn_scores
        else none,
        (teacherLoop cfg so attn (tsize1 so) 0 ⟨[], [], [], List.replicate B M⟩).sequence_symbols,
        (teacherLoop cfg so attn (tsize1 so) 0 ⟨[], [], [], List.replicate B M⟩).lengths, true,
        [(ins.map List.dropLast, DecHidden.single (zeros3 cfg.layer_size B cfg.hidden_size))]⟩ := by
  rw [forward, hval]
  simp only [if_pos hr]
  rw [hfs]

theorem forward_auto_inv (cfg : SpellerConfig) (K : Kernels) (normalize : Vec → Vec)
    (inputs : Option (List (List Nat))) (lh : Option DecHidden) (lo : Option Ten3)
    (tfr r : ℚ) (res : ForwardOut)
    (hr : ¬ r < tfr) (hfwd : forward cfg K inputs lh lo normalize tfr r = .ok res) :
    ∃ ins B M acc hid calls,
      validate_args cfg inputs lh lo tfr = .ok (ins, B, M) ∧
      autoLoop cfg K normalize lo M.toNat 0 (ins.map (fun row => [row.headD 0]))
        (DecHidden.single (zeros3 cfg.layer_size B cfg.hidden_size))
        ⟨[], [], [], List.replicate B M⟩ = .ok (acc, hid, calls) ∧
      res = ⟨acc.speller_outputs, hid,
        if cfg.use_attention then some acc.attn_scores else none,
        acc.sequence_symbols, acc.lengths, false, calls⟩ := by
  rw [forward] at hfwd
  split at hfwd
  · simp at hfwd
  · rename_i trip ins B M hval
    simp only [if_neg hr] at hfwd
    split at hfwd
    · simp at hfwd
    · rename_i x acc hid calls hal
      cases hfwd
      exact ⟨ins, B, M, acc, hid, calls, hval, hal, rfl⟩

theorem forward_teacher_inv (cfg : SpellerConfig) (K : Kernels) (normalize : Vec → Vec)
    (inputs : Option (List (List Nat))) (lh : Option DecHidden) (lo : Option Ten3)
    (tfr r : ℚ) (res : ForwardOut)
    (hr : r < tfr) (hfwd : forward cfg K inputs lh lo normalize tfr r = .ok res) :
    ∃ ins B M so hid attn,
      validate_args cfg inputs lh lo tfr = .ok (ins, B, M) ∧
      forward_step cfg K normalize (ins.map List.dropLast)
        (DecHidden.single (zeros3 cfg.layer_size B cfg.hidden_size)) lo = .ok (so, hid, attn) ∧
      res = ⟨(teacherLoop cfg so attn (tsize1 so) 0 ⟨[], [], [], List.replicate B M⟩).speller_outputs,
        hid,
        if cfg.use_attention then
          some (teacherLoop cfg so attn (tsize1 so) 0 ⟨[], [], [], List.replicate B M⟩).attn_scores
        else none,
        (teacherLoop cfg so attn (tsize1 so) 0 ⟨[], [], [], List.replicate B M⟩).sequence_symbols,
        (teacherLoop cfg so attn (tsize1 so) 0 ⟨[], [], [], List.replicate B M⟩).lengths, true,
        [(ins.map List.dropLast, DecHidden.single (zeros3 cfg.layer_size B cfg.hidden_size))]⟩ := by
  rw [forward] at hfwd
  split at hfwd
  · simp at hfwd
  · rename_i trip ins B M hval
    simp only [if_pos hr] at hfwd
    split at hfwd
    · simp at hfwd
    · rename_i x so hid attn hfs
      cases hfwd
      exact ⟨ins, B, M, so, hid, attn, hval, hfs, rfl⟩

/-! ### Further support lemmas -/

theorem tsize1_of_hasShape2 {α : Type} {m : List (List α)} {a b : Nat}
    (h : hasShape2 m a b) (ha : 0 < a) : tsize1 m = b := by
  cases m with
  | nil =>
    obtain ⟨h1, -⟩ := h
    simp at h1
    omega
  | cons r rest =>
    simpa [tsize1] using h.2 r (List.mem_cons_self r rest)

theorem hasShape2_dropLast {B T : Nat} (ins : List (List Nat)) (h : hasShape2 ins B T) :
    hasShape2 (ins.map List.dropLast) B (T - 1) := by
  constructor
  · simpa using h.1
  · intro r hr
    rw [List.mem_map] at hr
    obtain ⟨row, hrow, rfl⟩ := hr
    rw [List.length_dropLast, h.2 row hrow]

/-- Full inversion of a successful `_validate_args` call. -/
theorem validate_args_inv (cfg : SpellerConfig) (inputs : Option (List (List Nat)))
    (lh : Option DecHidden) (lo : Option Ten3) (tfr : ℚ)
    (ins : List (List Nat)) (B : Nat) (M : ℤ)
    (h : validate_args cfg inputs lh lo tfr = .ok (ins, B, M)) :
    ¬ (cfg.use_attention = true ∧ lo = none) ∧
    inferBatchSize cfg inputs lh = .ok B ∧
    ((inputs = none ∧ ¬ 0 < tfr ∧ ins = List.replicate B [cfg.sos_id] ∧
        M = (cfg.max_len : ℤ)) ∨
     (inputs = some ins ∧ B = ins.length ∧ M = (tsize1 ins : ℤ) - 1)) := by
  rw [validate_args] at h
  split at h
  · simp at h
  · rename_i hA
    split at h
    · simp at h
    · rename_i b hb
      cases inputs with
      | none =>
        have h2 : (if 0 < tfr then
            (Except.error "Teacher forcing has to be disabled (set 0) when no inputs is provided." :
              Except String (List (List Nat) × Nat × ℤ))
          else .ok (List.replicate b [cfg.sos_id], b, (cfg.max_len : ℤ))) = .ok (ins, B, M) := h
        split at h2
        · simp at h2
        · rename_i htfr
          simp only [Except.ok.injEq, Prod.mk.injEq] at h2
          obtain ⟨rfl, rfl, rfl⟩ := h2
          exact ⟨hA, hb, Or.inl ⟨rfl, htfr, rfl, rfl⟩⟩
      | some ins0 =>
        have h2 : (Except.ok (ins0, b, (tsize1 ins0 : ℤ) - 1) :
            Except String (List (List Nat) × Nat × ℤ)) = .ok (ins, B, M) := h
        simp only [Except.ok.injEq, Prod.mk.injEq] at h2
        obtain ⟨rfl, rfl, rfl⟩ := h2
        refine ⟨hA, hb, Or.inr ⟨rfl, ?_, rfl⟩⟩
        have hb2 := inferBatchSize_some cfg ins0 lh
        rw [hb] at hb2
        exact Except.ok.inj hb2

/-- The folded lengths entry for batch element `i`, starting from the
`max_length`-initialised array: `k + 1` at the first eos step `k`, and the
initial value when no eos is ever emitted. -/
theorem lengths_char (eos B i : Nat) (M : ℤ) (syms : List (List (List Nat))) (hi : i < B)
    (hk : ∀ k, firstEosIdx eos i syms = some k → (k : ℤ) < M) :
    (foldLengths eos 0 (List.replicate B M) syms)[i]? =
      some (match firstEosIdx eos i syms with
        | some k => ((k + 1 : Nat) : ℤ)
        | none => M) := by
  rw [foldLengths_getElem?, List.getElem?_replicate, if_pos hi]
  simp only [Option.map_some']
  cases hfe : firstEosIdx eos i syms with
  | none => rw [valAfter_none eos i syms hfe]
  | some k =>
    rw [valAfter_some eos i syms k hfe, if_pos (by have := hk k hfe; push_cast; omega)]
    have h01 : (0 : Nat) + k + 1 = k + 1 := by omega
    rw [h01]

/-- Special case of `lengths_char`: no eos emission keeps the initial value. -/
theorem lengths_char_none (eos B i : Nat) (M : ℤ) (syms : List (List (List Nat)))
    (hi : i < B) (hfe : firstEosIdx eos i syms = none) :
    (foldLengths eos 0 (List.replicate B M) syms)[i]? = some M := by
  rw [foldLengths_getElem?, List.getElem?_replicate, if_pos hi]
  simp only [Option.map_some']
  rw [valAfter_none eos i syms hfe]

/-- Special case of `lengths_char`: a first eos at step `k < M` records `k + 1`. -/
theorem lengths_char_some (eos B i k : Nat) (M : ℤ) (syms : List (List (List Nat)))
    (hi : i < B) (hfe : firstEosIdx eos i syms = some k) (hk : (k : ℤ) < M) :
    (foldLengths eos 0 (List.replicate B M) syms)[i]? = some ((k + 1 : Nat) : ℤ) := by
  rw [foldLengths_getElem?, List.getElem?_replicate, if_pos hi]
  simp only [Option.map_some']
  rw [valAfter_some eos i syms k hfe, if_pos (by push_cast; omega)]
  norm_num

/-! ### Concrete kernel instantiations -/

/-- The identity normalization function, used to instantiate concrete runs. -/
def normId : Vec → Vec := id

/-- A zero alignment of shape `[batch, L, source_len]` over a context. -/
def attnOf (o c : Ten3) : Ten3 :=
  o.map (fun m => m.map (fun _ => List.replicate (tsize1 c) (0 : ℚ)))

/-- Concrete kernels for hidden width 1 and vocabulary size 3: tokens embed
to themselves, dropout and normalization are the identity, the recurrent cell
echoes its input, attention keeps the output and returns a zero alignment,
and the projection always scores index 2 highest. -/
def K0 : Kernels :=
  ⟨fun n => [(n : ℚ)], id, fun t h => .ok (t, h),
   fun o c => (o, attnOf o c), fun _ => [0, 0, 1]⟩

/-- Kernels identical to `K0` except that the recurrent cell enforces the
`nn.LSTM` hidden-state contract.  Modelled from the spec: "RecurrentState:
opaque tensor (or pair of tensors, for LSTM-like cells)" — the `nn.LSTM`
numeric kernel is an external collaborator that requires its hidden-state
argument to be a pair of tensors and raises on a single tensor. -/
def KL : Kernels :=
  ⟨fun n => [(n : ℚ)], id,
   fun t h => match h with
     | DecHidden.pair _ _ => .ok (t, h)
     | DecHidden.single _ => .error "RuntimeError: hx expected a tuple of Tensors",
   fun o c => (o, attnOf o c), fun _ => [0, 0, 1]⟩

/-- vocab 3, max_len 4, hidden 1, sos 1, eos 2, one GRU layer, no attention. -/
def cfg0 : SpellerConfig := ⟨3, 4, 1, 1, 2, 1, RnnCell.gru, false⟩

/-- Like `cfg0` but with attention enabled. -/
def cfgAttn : SpellerConfig := ⟨3, 4, 1, 1, 2, 1, RnnCell.gru, true⟩

/-- Like `cfg0` but with an LSTM cell. -/
def cfgL : SpellerConfig := ⟨3, 4, 1, 1, 2, 1, RnnCell.lstm, false⟩

/-- A `[1, 2, 1]` encoder-output tensor (source length 2). -/
def ctx2 : Ten3 := [[[0], [0]]]

/-- Placeholder result used to extract concrete successful runs. -/
def dfltOut : ForwardOut := ⟨[], DecHidden.single [], none, [], [], false, []⟩

/-- The result record of a decode call known to succeed. -/
def resOf (x : Except String ForwardOut) : ForwardOut := x.toOption.getD dfltOut

theorem K0_spec (cfg : SpellerConfig) (hh : cfg.hidden_size = 1) (hv : cfg.vocab_size = 3) :
    KernelSpec cfg K0 normId := by
  constructor
  · intro n; simp [K0, hh]
  · intro t a b c ht; simpa [K0] using ht
  · intro t h a b ht; exact ⟨t, h, rfl, ht⟩
  · intro o ctx a b ho
    refine ⟨by simpa [K0] using ho, ?_, ?_⟩
    · simpa [K0, attnOf] using ho.1
    · intro m hm
      simp only [K0, attnOf, List.mem_map] at hm
      obtain ⟨m0, hm0, rfl⟩ := hm
      refine ⟨by simpa using (ho.2 m0 hm0).1, ?_⟩
      intro v hv2
      rw [List.mem_map] at hv2
      obtain ⟨x, -, rfl⟩ := hv2
      simp
  · intro v; simp [K0, hv]
  · intro v; simp [normId]

/-! ### Claim theorems -/

/-- C4: for every `[batch, L]` input-token tensor (`L ≥ 1` included) and
well-formed hidden state, the step transition returns a `[batch, L, vocab]`
distribution (embedding, input dropout, recurrent transition, optional
attention blending, projection, and `normalize_fn` along the vocabulary
axis), together with the updated hidden state and an alignment present iff
attention is enabled; it raises no error and, being a pure function of its
arguments, has no side effect beyond the dropout kernel it consumes. -/
theorem speller_step_transition_shape (cfg : SpellerConfig) (K : Kernels)
    (normalize : Vec → Vec) (inp : List (List Nat)) (hid : DecHidden) (lo : Option Ten3)
    (B L : Nat) (spec : KernelSpec cfg K normalize) (hinp : hasShape2 inp B L) :
    ∃ dist hid2 attn, forward_step cfg K normalize inp hid lo = .ok (dist, hid2, attn) ∧
      hasShape3 dist B L cfg.vocab_size ∧
      (attn.isSome ↔ cfg.use_attention = true) ∧
      (∀ a, attn = some a → hasShape3 a B L (tsize1 (lo.getD []))) :=
  forward_step_shape_aux cfg K normalize inp hid lo B L spec hinp

/-- Witness for C4: a concrete attention-enabled step-transition call
succeeds. -/
theorem speller_step_transition_shape_witness :
    (forward_step cfgAttn K0 normId [[1]] (DecHidden.single (zeros3 1 1 1))
      (some ctx2)).toOption.isSome = true := by
  obtain ⟨dist, hid2, attn, heq, -⟩ :=
    speller_step_transition_shape cfgAttn K0 normId [[1]] (DecHidden.single (zeros3 1 1 1))
      (some ctx2) 1 1 (K0_spec cfgAttn rfl rfl) (by decide)
  rw [heq]
  rfl

/-- C5: on a decoder configured with attention, a decode call without an
encoder-output sequence fails in `_validate_args` with the configuration
error, before any numeric computation, regardless of every other argument. -/
theorem speller_attention_requires_context (cfg : SpellerConfig) (K : Kernels)
    (normalize : Vec → Vec) (inputs : Option (List (List Nat))) (lh : Option DecHidden)
    (tfr r : ℚ) (hA : cfg.use_attention = true) :
    forward cfg K inputs lh none normalize tfr r =
      .error "Argument listener_outputs cannot be None when attention is used." ∧
    validate_args cfg inputs lh none tfr =
      .error "Argument listener_outputs cannot be None when attention is used." := by
  have hv := validate_args_attn_error cfg inputs lh tfr hA
  exact ⟨by rw [forward, hv], hv⟩

/-- Witness for C5: a concrete attention-enabled call without encoder
outputs reports the configuration error. -/
theorem speller_attention_requires_context_witness :
    forward cfgAttn K0 (some [[1, 2]]) none none normId (1 / 2) 0 =
      .error "Argument listener_outputs cannot be None when attention is used." :=
  (speller_attention_requires_context cfgAttn K0 normId (some [[1, 2]]) none (1 / 2) 0 rfl).1

/-- C7: argument validation resolves `(inputs, batch_size, max_length)` as
specified: with targets, batch is the targets' leading dimension and
max_length their sequence length minus one; without targets (and teacher
forcing disabled, as validation requires), batch comes from the hidden
state's batch dimension — read off an element of the pair for LSTM-like
cells — or defaults to 1, max_length is the configured maximum, and a
`[batch_size, 1]` tensor of start-of-sequence ids is synthesized. -/
theorem speller_validate_resolution (cfg : SpellerConfig) (lo : Option Ten3)
    (hA : ¬ (cfg.use_attention = true ∧ lo = none)) :
    (∀ (ins : List (List Nat)) (lh : Option DecHidden) (tfr : ℚ),
      validate_args cfg (some ins) lh lo tfr =
        .ok (ins, ins.length, (tsize1 ins : ℤ) - 1)) ∧
    (∀ tfr : ℚ, ¬ 0 < tfr →
      validate_args cfg none none lo tfr =
        .ok (List.replicate 1 [cfg.sos_id], 1, (cfg.max_len : ℤ))) ∧
    (∀ (h c : Ten3) (tfr : ℚ), ¬ 0 < tfr → cfg.rnn_cell = RnnCell.lstm →
      validate_args cfg none (some (DecHidden.pair h c)) lo tfr =
        .ok (List.replicate (tsize1 h) [cfg.sos_id], tsize1 h, (cfg.max_len : ℤ))) ∧
    (∀ (t : Ten3) (tfr : ℚ), ¬ 0 < tfr → cfg.rnn_cell = RnnCell.gru →
      validate_args cfg none (some (DecHidden.single t)) lo tfr =
        .ok (List.replicate (tsize1 t) [cfg.sos_id], tsize1 t, (cfg.max_len : ℤ))) := by
  refine ⟨?_, ?_, ?_, ?_⟩
  · intro ins lh tfr
    exact validate_args_some cfg ins lh lo tfr hA
  · intro tfr htfr
    exact validate_args_none cfg none lo tfr 1 hA htfr rfl
  · intro h c tfr htfr hcell
    exact validate_args_none cfg (some (DecHidden.pair h c)) lo tfr (tsize1 h) hA htfr
      (by simp [inferBatchSize, hcell])
  · intro t tfr htfr hcell
    exact validate_args_none cfg (some (DecHidden.single t)) lo tfr (tsize1 t) hA htfr
      (by simp [inferBatchSize, hcell])

/-- Witness for C7: the four resolution rules at concrete arguments. -/
theorem speller_validate_resolution_witness :
    validate_args cfg0 (some [[1, 0, 2]]) none none (1 / 2) = .ok ([[1, 0, 2]], 1, 2) ∧
    validate_args cfg0 none none none 0 = .ok ([[1]], 1, 4) ∧
    validate_args cfgL none (some (DecHidden.pair (zeros3 1 2 1) (zeros3 1 2 1))) none 0 =
      .ok ([[1], [1]], 2, 4) ∧
    validate_args cfg0 none (some (DecHidden.single (zeros3 1 3 1))) none 0 =
      .ok ([[1], [1], [1]], 3, 4) := by
  obtain ⟨h1, h2, h3, h4⟩ := speller_validate_resolution cfg0 none (by decide)
  obtain ⟨-, -, h3L, -⟩ := speller_validate_resolution cfgL none (by decide)
  refine ⟨?_, ?_, ?_, ?_⟩
  · exact h1 [[1, 0, 2]] none (1 / 2)
  · exact h2 0 (by norm_num)
  · exact h3L (zeros3 1 2 1) (zeros3 1 2 1) 0 (by norm_num) rfl
  · exact h4 (zeros3 1 3 1) 0 (by norm_num) rfl

/-- C9 (code bug): `rnn_cell='lstm'` passes the constructor's validation, but
`forward` then allocates the initial recurrent state as a *single* zeros
tensor (line 128) and hands it to the LSTM kernel, whose contract requires a
pair of tensors, so the decode call fails instead of threading a pair of
`[layers, batch, hidden]` tensors through the loop. -/
theorem speller_lstm_hidden_mismatch :
    mkSpellerConfig 3 4 1 1 2 1 "lstm" false = .ok cfgL ∧
    forward cfgL KL (some [[1, 0]]) none none normId 1 0 =
      .error "RuntimeError: hx expected a tuple of Tensors" := by
  constructor
  · rfl
  · rfl


/-- C8: the decoder's initial recurrent state is allocated as zeros on every
call, and a caller-supplied listener hidden state influences only batch-size
inference: when a target sequence is supplied (so the batch size comes from
the targets), two calls differing only in `listener_hidden` return identical
results — step outputs, predicted symbols and lengths included — and the
hidden state handed to the first step-transition call is the zeros tensor. -/
theorem speller_listener_hidden_noninterference (cfg : SpellerConfig) (K : Kernels)
    (normalize : Vec → Vec) (ins : List (List Nat)) (lh1 lh2 : Option DecHidden)
    (lo : Option Ten3) (tfr r : ℚ) :
    forward cfg K (some ins) lh1 lo normalize tfr r =
      forward cfg K (some ins) lh2 lo normalize tfr r ∧
    (∀ res c, forward cfg K (some ins) lh1 lo normalize tfr r = .ok res →
      res.calls.head? = some c →
      c.2 = DecHidden.single (zeros3 cfg.layer_size ins.length cfg.hidden_size)) := by
  have hVA : ∀ lh : Option DecHidden, validate_args cfg (some ins) lh lo tfr =
      validate_args cfg (some ins) none lo tfr := by
    intro lh
    rw [validate_args, validate_args, inferBatchSize_some, inferBatchSize_some]
  constructor
  · simp only [forward]
    rw [hVA lh1, hVA lh2]
  · intro res c hfwd hc
    by_cases hr : r < tfr
    · obtain ⟨ins1, B1, M1, so, hid, attn, hval, hfs, hres⟩ :=
        forward_teacher_inv cfg K normalize (some ins) lh1 lo tfr r res hr hfwd
      obtain ⟨-, -, hor⟩ := validate_args_inv cfg (some ins) lh1 lo tfr ins1 B1 M1 hval
      rcases hor with ⟨hnone, -⟩ | ⟨hsome, hB, -⟩
      · exact absurd hnone (by simp)
      · injection hsome with hins1
        subst hres
        simp only [List.head?_cons, Option.some.injEq] at hc
        subst hc
        rw [hB, ← hins1]
    · obtain ⟨ins1, B1, M1, acc, hid, calls, hval, hal, hres⟩ :=
        forward_auto_inv cfg K normalize (some ins) lh1 lo tfr r res hr hfwd
      obtain ⟨-, -, hor⟩ := validate_args_inv cfg (some ins) lh1 lo tfr ins1 B1 M1 hval
      rcases hor with ⟨hnone, -⟩ | ⟨hsome, hB, -⟩
      · exact absurd hnone (by simp)
      · injection hsome with hins1
        obtain ⟨steps, -, -, -, hhead⟩ :=
          autoLoop_ok_inv cfg K normalize lo M1.toNat 0 _ _ _ acc hid calls hal
        subst hres
        have := hhead c (by simpa using hc)
        rw [this, hB, ← hins1]

/-- The first step-transition call record of a concrete decode call with a
superfluous listener hidden state. -/
def c8res : ForwardOut :=
  resOf (forward cfg0 K0 (some [[1, 2]]) (some (DecHidden.single (zeros3 1 5 1))) none normId 0 0)

/-- Its first recorded (input, hidden) pair. -/
def c8call : List (List Nat) × DecHidden := c8res.calls.headD ([], DecHidden.single [])

/-- Witness for C8: the concrete noninterference instance and the zeros
initial hidden state of its first step call. -/
theorem speller_listener_hidden_noninterference_witness :
    forward cfg0 K0 (some [[1, 2]]) (some (DecHidden.single (zeros3 1 5 1))) none normId 0 0 =
      forward cfg0 K0 (some [[1, 2]]) none none normId 0 0 ∧
    c8call.2 = DecHidden.single (zeros3 cfg0.layer_size [[1, 2]].length cfg0.hidden_size) := by
  refine ⟨(speller_listener_hidden_noninterference cfg0 K0 normId [[1, 2]]
      (some (DecHidden.single (zeros3 1 5 1))) none none 0 0).1, ?_⟩
  exact (speller_listener_hidden_noninterference cfg0 K0 normId [[1, 2]]
      (some (DecHidden.single (zeros3 1 5 1))) none none 0 0).2 c8res c8call (by rfl) (by rfl)

/-- C6 (amended): for a decode call with no targets, *provided the other
validation checks pass* (encoder outputs supplied whenever attention is
enabled, and the supplied hidden state compatible with the cell kind so that
batch inference succeeds), the call reports a configuration error iff
`teacher_forcing_ratio > 0`, and with ratio 0 it proceeds and always takes
the autoregressive branch. -/
theorem speller_no_targets_ratio_check (cfg : SpellerConfig) (K : Kernels)
    (normalize : Vec → Vec) (lh : Option DecHidden) (lo : Option Ten3) (tfr r : ℚ) (b : Nat)
    (spec : KernelSpec cfg K normalize) (hr0 : 0 ≤ r)
    (hA : ¬ (cfg.use_attention = true ∧ lo = none))
    (hb : inferBatchSize cfg none lh = .ok b) :
    ((∃ e, forward cfg K none lh lo normalize tfr r = .error e) ↔ 0 < tfr) ∧
    (¬ 0 < tfr → ∃ res, forward cfg K none lh lo normalize tfr r = .ok res ∧
      res.teacherForced = false) := by
  by_cases htfr : 0 < tfr
  · have hv := validate_args_tfr_error cfg lh lo tfr b hA htfr hb
    have hf : forward cfg K none lh lo normalize tfr r =
        .error "Teacher forcing has to be disabled (set 0) when no inputs is provided." := by
      rw [forward, hv]
    exact ⟨⟨fun _ => htfr, fun _ => ⟨_, hf⟩⟩, fun h => absurd htfr h⟩
  · have hv := validate_args_none cfg lh lo tfr b hA htfr hb
    have hr : ¬ r < tfr := fun hlt => htfr (lt_of_le_of_lt hr0 hlt)
    have hsh : hasShape2 ((List.replicate b [cfg.sos_id]).map (fun row => [row.headD 0])) b 1 := by
      constructor
      · simp
      · intro rr hrr
        rw [List.mem_map] at hrr
        obtain ⟨row, -, rfl⟩ := hrr
        rfl
    obtain ⟨acc2, hid2, calls, steps, hal, -, -, -, -, -⟩ :=
      autoLoop_full cfg K normalize lo spec b ((cfg.max_len : ℤ)).toNat 0 _
        (DecHidden.single (zeros3 cfg.layer_size b cfg.hidden_size))
        ⟨[], [], [], List.replicate b (cfg.max_len : ℤ)⟩ hsh
    have hf := forward_auto_run cfg K normalize none lh lo tfr r _ b (cfg.max_len : ℤ)
      acc2 hid2 calls hv hr hal
    refine ⟨⟨?_, fun h => absurd h htfr⟩, fun _ => ⟨_, hf, rfl⟩⟩
    rintro ⟨e, he⟩
    rw [hf] at he
    simp at he

/-- Witness for C6 (amended): a concrete no-targets call with ratio 0 and no
attention proceeds autoregressively. -/
theorem speller_no_targets_ratio_check_witness :
    ¬ ((0 : ℚ) < 0) ∧
    (∃ res, forward cfg0 K0 none none none normId 0 0 = .ok res ∧
      res.teacherForced = false) := by
  have h := speller_no_targets_ratio_check cfg0 K0 normId none none 0 0 1
    (K0_spec cfg0 rfl rfl) (by norm_num) (by decide) rfl
  exact ⟨by norm_num, h.2 (by norm_num)⟩

/-- Counterexample for C6 as stated: with no targets and ratio exactly 0,
but attention enabled and no encoder-output sequence, the decode call still
reports a configuration error, so "reports a configuration error iff
teacher_forcing_ratio > 0" is false. -/
theorem speller_no_targets_iff_counterexample :
    forward cfgAttn K0 none none none normId 0 0 =
      .error "Argument listener_outputs cannot be None when attention is used." ∧
    ¬ ((0 : ℚ) < 0) := ⟨by rfl, by norm_num⟩


/-- C2 (amended): a decode call that takes the autoregressive branch, with
resolved batch size `B` and resolved max_length `M ≥ 0`, performs exactly `M`
step-transition calls with no early exit, and returns exactly `M` step
outputs, `M` predicted symbols, and a lengths list of exactly `B` integers;
when `M ≥ 1` every recorded length lies in `[1, M]`, while in the boundary
case `M = 0` (a length-1 target) the `B` recorded lengths are all `0`. -/
theorem speller_auto_step_counts (cfg : SpellerConfig) (K : Kernels)
    (normalize : Vec → Vec) (inputs : Option (List (List Nat))) (lh : Option DecHidden)
    (lo : Option Ten3) (tfr r : ℚ) (ins : List (List Nat)) (B : Nat) (M : ℤ)
    (spec : KernelSpec cfg K normalize)
    (hval : validate_args cfg inputs lh lo tfr = .ok (ins, B, M))
    (hr : ¬ r < tfr) (hM : 0 ≤ M) :
    ∃ res, forward cfg K inputs lh lo normalize tfr r = .ok res ∧
      res.teacherForced = false ∧
      res.speller_outputs.length = M.toNat ∧
      res.sequence.length = M.toNat ∧
      res.calls.length = M.toNat ∧
      res.lengths.length = B ∧
      (1 ≤ M → ∀ li ∈ res.lengths, 1 ≤ li ∧ li ≤ M) ∧
      (M = 0 → ∀ li ∈ res.lengths, li = 0) := by
  have hB := validate_args_batch cfg inputs lh lo tfr ins B M hval
  have hsh : hasShape2 (ins.map (fun row => [row.headD 0])) B 1 := by
    constructor
    · simpa using hB
    · intro rr hrr
      rw [List.mem_map] at hrr
      obtain ⟨row, -, rfl⟩ := hrr
      rfl
  obtain ⟨acc2, hid2, calls, steps, hal, hacc, hslen, hclen, -, -⟩ :=
    autoLoop_full cfg K normalize lo spec B M.toNat 0 _
      (DecHidden.single (zeros3 cfg.layer_size B cfg.hidden_size))
      ⟨[], [], [], List.replicate B M⟩ hsh
  have hf := forward_auto_run cfg K normalize inputs lh lo tfr r ins B M
    acc2 hid2 calls hval hr hal
  subst hacc
  refine ⟨_, hf, rfl, ?_, ?_, ?_, ?_, ?_, ?_⟩
  · show (applySteps cfg ⟨[], [], [], List.replicate B M⟩ 0 steps).speller_outputs.length = M.toNat
    rw [applySteps_speller_outputs]
    simp [hslen]
  · show (applySteps cfg ⟨[], [], [], List.replicate B M⟩ 0 steps).sequence_symbols.length = M.toNat
    rw [applySteps_sequence]
    simp [hslen]
  · exact hclen
  · show (applySteps cfg ⟨[], [], [], List.replicate B M⟩ 0 steps).lengths.length = B
    rw [applySteps_lengths cfg steps ⟨[], [], [], List.replicate B M⟩ 0 rfl, foldLengths_length]
    simp
  · intro h1 li hli
    have hli2 : li ∈ (applySteps cfg ⟨[], [], [], List.replicate B M⟩ 0 steps).lengths := hli
    rw [applySteps_lengths cfg steps ⟨[], [], [], List.replicate B M⟩ 0 rfl] at hli2
    obtain ⟨i, hi⟩ := List.mem_iff_getElem?.mp hli2
    have hilt : i < B := by
      have := (List.getElem?_eq_some.mp hi).1
      rwa [foldLengths_length, List.length_replicate] at this
    cases hfe : firstEosIdx cfg.eos_id i (steps.map (fun p => symbolOf p.1)) with
    | none =>
      rw [lengths_char_none cfg.eos_id B i M _ hilt hfe] at hi
      injection hi with hi
      omega
    | some k =>
      have hk : k < M.toNat := by
        have := firstEosIdx_lt_length _ _ _ _ hfe
        rwa [List.length_map, hslen] at this
      rw [lengths_char_some cfg.eos_id B i k M _ hilt hfe (by omega)] at hi
      injection hi with hi
      omega
  · intro h0 li hli
    have hli2 : li ∈ (applySteps cfg ⟨[], [], [], List.replicate B M⟩ 0 steps).lengths := hli
    rw [applySteps_lengths cfg steps ⟨[], [], [], List.replicate B M⟩ 0 rfl] at hli2
    have hsteps0 : steps = [] := by
      rw [← List.length_eq_zero, hslen, h0]
      rfl
    subst hsteps0
    simp only [List.map_nil, foldLengths] at hli2
    have := List.eq_of_mem_replicate hli2
    omega

/-- Witness for C2 (amended): a concrete autoregressive run with B = 1 and
M = 4 produces 4 step outputs and one recorded length. -/
theorem speller_auto_step_counts_witness :
    (resOf (forward cfg0 K0 none none none normId 0 0)).speller_outputs.length = 4 ∧
    (resOf (forward cfg0 K0 none none none normId 0 0)).lengths.length = 1 := by
  obtain ⟨res, hres, -, ho, -, -, hl, -, -⟩ :=
    speller_auto_step_counts cfg0 K0 normId none none none 0 0 [[1]] 1 4
      (K0_spec cfg0 rfl rfl) (by rfl) (by norm_num) (by norm_num)
  rw [show resOf (forward cfg0 K0 none none none normId 0 0) = res by rw [resOf, hres]; rfl]
  exact ⟨ho, hl⟩

/-- Counterexample for C2 as stated: supplying the length-1 target `[[1]]`
and taking the autoregressive branch resolves `max_length = 0`; the call
performs no steps and records the length `0`, which does not lie in the
claimed interval `[1, M] = [1, 0]`. -/
theorem speller_auto_zero_max_counterexample :
    validate_args cfg0 (some [[1]]) none none 0 = .ok ([[1]], 1, 0) ∧
    forward cfg0 K0 (some [[1]]) none none normId 0 0 =
      .ok ⟨[], DecHidden.single (zeros3 1 1 1), none, [], [0], false, []⟩ ∧
    ¬ (1 ≤ (0 : ℤ)) := ⟨by rfl, by rfl, by norm_num⟩


/-- C3: a decode call on a `[B, T]` target (`T ≥ 1`) that takes the
teacher-forced branch resolves `max_length = T - 1`, feeds the whole target
minus its final token to the step transition in a single call with the zeros
initial state, and produces exactly `T - 1` step outputs (and symbols). -/
theorem speller_teacher_forced_counts (cfg : SpellerConfig) (K : Kernels)
    (normalize : Vec → Vec) (ins : List (List Nat)) (lh : Option DecHidden)
    (lo : Option Ten3) (tfr r : ℚ) (res : ForwardOut) (B T : Nat)
    (spec : KernelSpec cfg K normalize)
    (hins : hasShape2 ins B T) (hB : 1 ≤ B) (hT : 1 ≤ T)
    (hr : r < tfr)
    (hfwd : forward cfg K (some ins) lh lo normalize tfr r = .ok res) :
    validate_args cfg (some ins) lh lo tfr = .ok (ins, B, (T : ℤ) - 1) ∧
    res.calls = [(ins.map List.dropLast,
      DecHidden.single (zeros3 cfg.layer_size B cfg.hidden_size))] ∧
    res.speller_outputs.length = T - 1 ∧
    res.sequence.length = T - 1 ∧
    res.teacherForced = true := by
  obtain ⟨ins1, B1, M1, so, hid, attn, hval, hfs, hres⟩ :=
    forward_teacher_inv cfg K normalize (some ins) lh lo tfr r res hr hfwd
  obtain ⟨hA, -, hor⟩ := validate_args_inv cfg (some ins) lh lo tfr ins1 B1 M1 hval
  rcases hor with ⟨hnone, -⟩ | ⟨hsome, hB1, hM1⟩
  · exact absurd hnone (by simp)
  · injection hsome with hins1
    subst hins1
    have hT1 : tsize1 ins = T := tsize1_of_hasShape2 hins (by omega)
    have hBB : B1 = B := by rw [hB1, hins.1]
    have hMM : M1 = (T : ℤ) - 1 := by rw [hM1, hT1]
    subst hBB
    subst hMM
    obtain ⟨dist, hid2, attn2, hfs2, hdist, -, -⟩ :=
      forward_step_shape_aux cfg K normalize (ins.map List.dropLast)
        (DecHidden.single (zeros3 cfg.layer_size B1 cfg.hidden_size)) lo B1 (T - 1) spec
        (hasShape2_dropLast ins hins)
    rw [hfs] at hfs2
    cases hfs2
    have hts : tsize1 so = T - 1 := tsize1_of_hasShape3 hdist (by omega)
    subst hres
    refine ⟨hval, rfl, ?_, ?_, rfl⟩
    · show (teacherLoop cfg so attn (tsize1 so) 0
        ⟨[], [], [], List.replicate B1 ((T : ℤ) - 1)⟩).speller_outputs.length = T - 1
      rw [teacherLoop_eq, applySteps_speller_outputs]
      simp [rangeFrom_length, hts]
    · show (teacherLoop cfg so attn (tsize1 so) 0
        ⟨[], [], [], List.replicate B1 ((T : ℤ) - 1)⟩).sequence_symbols.length = T - 1
      rw [teacherLoop_eq, applySteps_sequence]
      simp [rangeFrom_length, hts]

/-- Witness for C3: a concrete teacher-forced run on a length-3 target
resolves max_length 2 and produces 2 step outputs. -/
theorem speller_teacher_forced_counts_witness :
    validate_args cfg0 (some [[1, 0, 2]]) none none 1 = .ok ([[1, 0, 2]], 1, 2) ∧
    (resOf (forward cfg0 K0 (some [[1, 0, 2]]) none none normId 1 0)).speller_outputs.length = 2 := by
  obtain ⟨hv, -, ho, -, -⟩ :=
    speller_teacher_forced_counts cfg0 K0 normId [[1, 0, 2]] none none 1 0
      (resOf (forward cfg0 K0 (some [[1, 0, 2]]) none none normId 1 0)) 1 3
      (K0_spec cfg0 rfl rfl) (by decide) (by norm_num) (by norm_num) (by norm_num) (by rfl)
  exact ⟨hv, ho⟩


/-- C1: for every decode call, the per-sample lengths array is initialised
to the resolved max_length for every batch element; if batch element `i`
first emits `eos_id` at 0-indexed step `k`, its recorded length is exactly
`k + 1` and no later eos emission changes it (values only decrease from the
initial max_length; first end-of-sequence wins), while an element that never
emits `eos_id` keeps max_length. -/
theorem speller_lengths_first_eos (cfg : SpellerConfig) (K : Kernels)
    (normalize : Vec → Vec) (inputs : Option (List (List Nat))) (lh : Option DecHidden)
    (lo : Option Ten3) (tfr r : ℚ) (res : ForwardOut) (ins : List (List Nat))
    (B : Nat) (M : ℤ) (i : Nat)
    (spec : KernelSpec cfg K normalize) (hr0 : 0 ≤ r)
    (hins : ∀ x, inputs = some x → ∃ T, hasShape2 x B T ∧ 1 ≤ T)
    (hfwd : forward cfg K inputs lh lo normalize tfr r = .ok res)
    (hval : validate_args cfg inputs lh lo tfr = .ok (ins, B, M))
    (hi : i < B) :
    res.lengths[i]? = some (match firstEosIdx cfg.eos_id i res.sequence with
      | some k => ((k + 1 : Nat) : ℤ)
      | none => M) := by
  by_cases hr : r < tfr
  · obtain ⟨ins1, B1, M1, so, hid, attn, hval1, hfs, hres⟩ :=
      forward_teacher_inv cfg K normalize inputs lh lo tfr r res hr hfwd
    rw [hval] at hval1
    cases hval1
    obtain ⟨-, -, hor⟩ := validate_args_inv cfg inputs lh lo tfr ins B M hval
    rcases hor with ⟨-, htfr, -, -⟩ | ⟨hsome, hB, hM⟩
    · exact absurd (lt_of_le_of_lt hr0 hr) htfr
    · subst hsome
      obtain ⟨T, hshape, hT⟩ := hins ins rfl
      have hT1 : tsize1 ins = T := tsize1_of_hasShape2 hshape (by omega)
      obtain ⟨dist, hid2, attn2, hfs2, hdist, -, -⟩ :=
        forward_step_shape_aux cfg K normalize (ins.map List.dropLast)
          (DecHidden.single (zeros3 cfg.layer_size B cfg.hidden_size)) lo B (T - 1) spec
          (hasShape2_dropLast ins hshape)
      rw [hfs] at hfs2
      cases hfs2
      have hts : tsize1 so = T - 1 := tsize1_of_hasShape3 hdist (by omega)
      subst hres
      show (teacherLoop cfg so attn (tsize1 so) 0
          ⟨[], [], [], List.replicate B M⟩).lengths[i]? =
        some (match firstEosIdx cfg.eos_id i (teacherLoop cfg so attn (tsize1 so) 0
            ⟨[], [], [], List.replicate B M⟩).sequence_symbols with
          | some k => ((k + 1 : Nat) : ℤ)
          | none => M)
      rw [teacherLoop_eq cfg so attn (tsize1 so) 0 ⟨[], [], [], List.replicate B M⟩]
      rw [applySteps_lengths cfg _ ⟨[], [], [], List.replicate B M⟩ 0 rfl,
        applySteps_sequence]
      simp only [List.nil_append]
      exact lengths_char cfg.eos_id B i M _ hi (fun k hk => by
        have h1 := firstEosIdx_lt_length _ _ _ _ hk
        rw [List.length_map, List.length_map, rangeFrom_length, hts] at h1
        rw [hM, hT1]
        omega)
  · obtain ⟨ins1, B1, M1, acc, hid, calls, hval1, hal, hres⟩ :=
      forward_auto_inv cfg K normalize inputs lh lo tfr r res hr hfwd
    rw [hval] at hval1
    cases hval1
    obtain ⟨steps, hslen, hacc, -, -⟩ :=
      autoLoop_ok_inv cfg K normalize lo M.toNat 0 _ _ _ acc hid calls hal
    subst hres
    subst hacc
    show (applySteps cfg ⟨[], [], [], List.replicate B M⟩ 0 steps).lengths[i]? =
      some (match firstEosIdx cfg.eos_id i
          (applySteps cfg ⟨[], [], [], List.replicate B M⟩ 0 steps).sequence_symbols with
        | some k => ((k + 1 : Nat) : ℤ)
        | none => M)
    rw [applySteps_lengths cfg _ ⟨[], [], [], List.replicate B M⟩ 0 rfl,
      applySteps_sequence]
    simp only [List.nil_append]
    exact lengths_char cfg.eos_id B i M _ hi (fun k hk => by
      have h1 := firstEosIdx_lt_length _ _ _ _ hk
      rw [List.length_map, hslen] at h1
      omega)

/-- Witness for C1: in a concrete run whose first predicted symbol is the
eos id, the recorded length of batch element 0 is 1. -/
theorem speller_lengths_first_eos_witness :
    (resOf (forward cfg0 K0 none none none normId 0 0)).lengths[0]? = some 1 := by
  have h := speller_lengths_first_eos cfg0 K0 normId none none none 0 0
    (resOf (forward cfg0 K0 none none none normId 0 0)) [[1]] 1 4 0
    (K0_spec cfg0 rfl rfl) (by norm_num) (fun x hx => Option.noConfusion hx)
    (by rfl) (by rfl) (by norm_num)
  rw [h]
  rfl


/-- C10 (amended): for every decode call, the predicted-symbol sequence has
exactly as many entries as the step-output sequence; when attention is
enabled the attention trace is present with the same entry count, and each
entry is the 2-D `[batch, source_len]` slice `attn[:, di, :]` in the
teacher-forced branch but the raw, unsliced 3-D `[batch, 1, source_len]`
alignment in the autoregressive branch; when attention is disabled no
attention trace is present in the result record. -/
theorem speller_attn_trace_counts_shapes (cfg : SpellerConfig) (K : Kernels)
    (normalize : Vec → Vec) (inputs : Option (List (List Nat))) (lh : Option DecHidden)
    (lo : Option Ten3) (tfr r : ℚ) (res : ForwardOut) (ins : List (List Nat))
    (B : Nat) (M : ℤ)
    (spec : KernelSpec cfg K normalize) (hr0 : 0 ≤ r)
    (hins : ∀ x, inputs = some x → ∃ T, hasShape2 x B T ∧ 1 ≤ T)
    (hB : 1 ≤ B)
    (hfwd : forward cfg K inputs lh lo normalize tfr r = .ok res)
    (hval : validate_args cfg inputs lh lo tfr = .ok (ins, B, M)) :
    res.sequence.length = res.speller_outputs.length ∧
    (cfg.use_attention = false → res.attn_scores = none) ∧
    (cfg.use_attention = true → ∃ l, res.attn_scores = some l ∧
      l.length = res.speller_outputs.length ∧
      (res.teacherForced = false →
        ∀ e ∈ l, e.isTenOfShape B 1 (tsize1 (lo.getD [])) = true) ∧
      (res.teacherForced = true →
        ∀ e ∈ l, e.isMatOfShape B (tsize1 (lo.getD [])) = true)) := by
  by_cases hr : r < tfr
  · obtain ⟨ins1, B1, M1, so, hid, attn, hval1, hfs, hres⟩ :=
      forward_teacher_inv cfg K normalize inputs lh lo tfr r res hr hfwd
    rw [hval] at hval1
    cases hval1
    obtain ⟨-, -, hor⟩ := validate_args_inv cfg inputs lh lo tfr ins B M hval
    rcases hor with ⟨-, htfr, -, -⟩ | ⟨hsome, hBB, hM⟩
    · exact absurd (lt_of_le_of_lt hr0 hr) htfr
    · subst hsome
      obtain ⟨T, hshape, hT⟩ := hins ins rfl
      obtain ⟨dist, hid2, attn2, hfs2, hdist, hsome2, hashape⟩ :=
        forward_step_shape_aux cfg K normalize (ins.map List.dropLast)
          (DecHidden.single (zeros3 cfg.layer_size B cfg.hidden_size)) lo B (T - 1) spec
          (hasShape2_dropLast ins hshape)
      rw [hfs] at hfs2
      cases hfs2
      have hts : tsize1 so = T - 1 := tsize1_of_hasShape3 hdist (by omega)
      subst hres
      refine ⟨?_, ?_, ?_⟩
      · show (teacherLoop cfg so attn (tsize1 so) 0
            ⟨[], [], [], List.replicate B M⟩).sequence_symbols.length =
          (teacherLoop cfg so attn (tsize1 so) 0
            ⟨[], [], [], List.replicate B M⟩).speller_outputs.length
        rw [teacherLoop_eq, applySteps_sequence, applySteps_speller_outputs]
        simp
      · intro hua
        show (if cfg.use_attention = true then
            some (teacherLoop cfg so attn (tsize1 so) 0
              ⟨[], [], [], List.replicate B M⟩).attn_scores
          else none) = none
        rw [hua]
        simp
      · intro hua
        obtain ⟨a, ha⟩ := Option.isSome_iff_exists.mp (hsome2.mpr hua)
        refine ⟨(teacherLoop cfg so attn (tsize1 so) 0
            ⟨[], [], [], List.replicate B M⟩).attn_scores, ?_, ?_, ?_, ?_⟩
        · show (if cfg.use_attention = true then
              some (teacherLoop cfg so attn (tsize1 so) 0
                ⟨[], [], [], List.replicate B M⟩).attn_scores
            else none) = some (teacherLoop cfg so attn (tsize1 so) 0
              ⟨[], [], [], List.replicate B M⟩).attn_scores
          rw [hua]
          simp
        · show (teacherLoop cfg so attn (tsize1 so) 0
              ⟨[], [], [], List.replicate B M⟩).attn_scores.length =
            (teacherLoop cfg so attn (tsize1 so) 0
              ⟨[], [], [], List.replicate B M⟩).speller_outputs.length
          rw [teacherLoop_eq, applySteps_attn_true cfg hua, applySteps_speller_outputs]
          simp
        · intro hfalse
          exact absurd hfalse (by simp)
        · rintro - e he
          show e.isMatOfShape B (tsize1 (lo.getD [])) = true
          rw [show (teacherLoop cfg so attn (tsize1 so) 0
              ⟨[], [], [], List.replicate B M⟩).attn_scores =
            [] ++ ((rangeFrom 0 (tsize1 so)).map (fun di => (col di so,
              attn.map (fun a2 => AttnEntry.mat (col di a2))))).map
                (fun p => p.2.getD (AttnEntry.mat [])) from by
              rw [teacherLoop_eq, applySteps_attn_true cfg hua]] at he
          simp only [List.nil_append, List.map_map, List.mem_map,
            Function.comp_apply] at he
          obtain ⟨di, hdi, rfl⟩ := he
          rw [mem_rangeFrom] at hdi
          rw [ha]
          simp only [Option.map_some', Option.getD_some, AttnEntry.isMatOfShape,
            decide_eq_true_eq]
          exact hasShape2_col a (hashape a ha) di (by rw [hts] at hdi; omega)
  · obtain ⟨ins1, B1, M1, acc, hid, calls, hval1, hal, hres⟩ :=
      forward_auto_inv cfg K normalize inputs lh lo tfr r res hr hfwd
    rw [hval] at hval1
    cases hval1
    have hBlen := validate_args_batch cfg inputs lh lo tfr ins B M hval
    have hsh : hasShape2 (ins.map (fun row => [row.headD 0])) B 1 := by
      constructor
      · simpa using hBlen
      · intro rr hrr
        rw [List.mem_map] at hrr
        obtain ⟨row, -, rfl⟩ := hrr
        rfl
    obtain ⟨acc2, hid2, calls2, steps, hal2, hacc2, hslen, -, -, hsteps⟩ :=
      autoLoop_full cfg K normalize lo spec B M.toNat 0 _
        (DecHidden.single (zeros3 cfg.layer_size B cfg.hidden_size))
        ⟨[], [], [], List.replicate B M⟩ hsh
    rw [hal] at hal2
    cases hal2
    subst hres
    subst hacc2
    refine ⟨?_, ?_, ?_⟩
    · show (applySteps cfg ⟨[], [], [], List.replicate B M⟩ 0 steps).sequence_symbols.length =
        (applySteps cfg ⟨[], [], [], List.replicate B M⟩ 0 steps).speller_outputs.length
      rw [applySteps_sequence, applySteps_speller_outputs]
      simp
    · intro hua
      show (if cfg.use_attention = true then
          some (applySteps cfg ⟨[], [], [], List.replicate B M⟩ 0 steps).attn_scores
        else none) = none
      rw [hua]
      simp
    · intro hua
      refine ⟨(applySteps cfg ⟨[], [], [], List.replicate B M⟩ 0 steps).attn_scores,
        ?_, ?_, ?_, ?_⟩
      · show (if cfg.use_attention = true then
            some (applySteps cfg ⟨[], [], [], List.replicate B M⟩ 0 steps).attn_scores
          else none) = some (applySteps cfg ⟨[], [], [], List.replicate B M⟩ 0 steps).attn_scores
        rw [hua]
        simp
      · show (applySteps cfg ⟨[], [], [], List.replicate B M⟩ 0 steps).attn_scores.length =
          (applySteps cfg ⟨[], [], [], List.replicate B M⟩ 0 steps).speller_outputs.length
        rw [applySteps_attn_true cfg hua, applySteps_speller_outputs]
        simp
      · rintro - e he
        show e.isTenOfShape B 1 (tsize1 (lo.getD [])) = true
        rw [show (applySteps cfg ⟨[], [], [], List.replicate B M⟩ 0 steps).attn_scores =
          [] ++ steps.map (fun p => p.2.getD (AttnEntry.mat [])) from
            applySteps_attn_true cfg hua steps ⟨[], [], [], List.replicate B M⟩ 0] at he
        simp only [List.nil_append, List.mem_map] at he
        obtain ⟨p, hp, rfl⟩ := he
        obtain ⟨-, hten, -⟩ := hsteps p hp
        obtain ⟨t, hpt, htshape⟩ := hten hua
        rw [hpt]
        simp only [Option.getD_some, AttnEntry.isTenOfShape, decide_eq_true_eq]
        exact htshape
      · intro htrue
        exact absurd htrue (by simp)


/-- Witness for C10 (amended): a concrete attention-enabled autoregressive
run has equal symbol/output counts and four raw `[1, 1, 2]` alignments. -/
theorem speller_attn_trace_counts_shapes_witness :
    (resOf (forward cfgAttn K0 none none (some ctx2) normId 0 0)).sequence.length =
      (resOf (forward cfgAttn K0 none none (some ctx2) normId 0 0)).speller_outputs.length ∧
    (∃ l, (resOf (forward cfgAttn K0 none none (some ctx2) normId 0 0)).attn_scores = some l ∧
      l.length = 4 ∧ ∀ e ∈ l, e.isTenOfShape 1 1 2 = true) := by
  obtain ⟨hcount, -, hattn⟩ :=
    speller_attn_trace_counts_shapes cfgAttn K0 normId none none (some ctx2) 0 0
      (resOf (forward cfgAttn K0 none none (some ctx2) normId 0 0)) [[1]] 1 4
      (K0_spec cfgAttn rfl rfl) (by norm_num) (fun x hx => Option.noConfusion hx)
      (by norm_num) (by rfl) (by rfl)
  obtain ⟨l, hl, hlen, hten, -⟩ := hattn rfl
  refine ⟨hcount, l, hl, ?_, ?_⟩
  · rw [hlen]
    rfl
  · intro e he
    exact hten (by rfl) e he

/-- Counterexample for C10 as stated: in a concrete attention-enabled
autoregressive run with encoder outputs of source length 2, the recorded
attention-trace entries are the raw 3-D `[1, 1, 2]` alignment tensors, not
2-D `[batch, source_len]` matrices as the claim asserts. -/
theorem speller_attn_entry_shape_counterexample :
    (resOf (forward cfgAttn K0 none none (some ctx2) normId 0 0)).attn_scores =
      some (List.replicate 4 (AttnEntry.ten [[[0, 0]]])) ∧
    (AttnEntry.ten [[[0, 0]]]).isMatOfShape 1 2 = false := ⟨by rfl, by rfl⟩


end Speller
